import Mathlib

/-!
Verification of the urd time-tracking engine (`store.go` / `main.go`).

The Go code is shallowly embedded: timestamps are modelled as `Int` values
counting whole seconds, and every operation that reads the wall clock
(`time.Now()`) takes the sampled instant as an explicit `now` parameter.
`time.Duration` arithmetic in the source only ever crosses the API at
whole-second granularity (`Seconds` is an `int64` of seconds, deltas are
truncated to whole seconds before being banked or summed), so second-level
integers are a faithful carrier.  Pointers `*time.Time` become
`Option Int`; Go `nil` slices become `[]`.
-/

namespace Urd

/-- Mirror of Go `Session`: a wall-clock interval; `end_` is `nil` (`none`)
while the session is still open. -/
structure Session where
  start : Int
  end_ : Option Int
deriving DecidableEq, Repr

/-- Mirror of Go `Stream`: a named unit of tracked work. -/
structure Stream where
  id : String
  name : String
  seconds : Int
  active : Bool
  startedAt : Option Int
  createdAt : Int
deriving DecidableEq, Repr

/-- Mirror of Go `Store` (the `FilePath` field carries the json:"-" tag and
is not part of the persisted data, so it is omitted). -/
structure Store where
  streams : List Stream
  sessions : List Session
  lastActive : List String
deriving DecidableEq, Repr

/-- Activity of a stream list: Go `HasActive`'s loop over `s.Streams`. -/
def hasActiveL (l : List Stream) : Bool :=
  l.any (fun st => st.active)

/-- Go `(s *Store) HasActive()`. -/
def Store.hasActive (s : Store) : Bool :=
  hasActiveL s.streams

/-- Go `(s *Store) flushStream(st *Stream)`: bank the running delta
(`Seconds += int64(time.Since(*st.StartedAt).Seconds())`), a no-op when
`StartedAt` is `nil`. -/
def flushStream (st : Stream) (now : Int) : Stream :=
  match st.startedAt with
  | some t0 => { st with seconds := st.seconds + (now - t0) }
  | none => st

/-- The Active-to-Inactive transition used by `ToggleStream` and `StopAll`:
flush, then `Active = false`, `StartedAt = nil`. -/
def deactivate (st : Stream) (now : Int) : Stream :=
  { flushStream st now with active := false, startedAt := none }

/-- Go `(st *Stream) Elapsed()`: banked seconds plus the running delta of an
active stream. -/
def Stream.elapsed (st : Stream) (now : Int) : Int :=
  st.seconds +
    (if st.active then
      match st.startedAt with
      | some t0 => now - t0
      | none => 0
    else 0)

/-- The loop body of Go `ToggleStream`: find the first stream with the given
id, flip it (deactivating flushes, activating stamps `StartedAt = now`),
and stop (`break`). -/
def toggleFirst (id : String) (now : Int) : List Stream → List Stream
  | [] => []
  | st :: rest =>
    if st.id = id then
      (if st.active then deactivate st now
       else { st with active := true, startedAt := some now }) :: rest
    else st :: toggleFirst id now rest

/-- The loop of Go `DeleteStream`: remove the first stream with the given
id (`return` after the splice), no-op when absent. -/
def deleteFirst (id : String) : List Stream → List Stream
  | [] => []
  | st :: rest => if st.id = id then rest else st :: deleteFirst id rest

/-- One pass closing the first open session encountered; applied to the
reversed list this is exactly Go `closeCurrentSession`'s backwards scan
(`for i := len-1; i >= 0; i--`, set the first `End == nil`, `return`). -/
def closeFirstOpenAux (now : Int) : List Session → List Session
  | [] => []
  | sess :: rest =>
    match sess.end_ with
    | none => { sess with end_ := some now } :: rest
    | some _ => sess :: closeFirstOpenAux now rest

/-- Sessions after Go `closeCurrentSession`: scanning from the end, the most
recent open session gets `End = now`. -/
def closeSessions (l : List Session) (now : Int) : List Session :=
  (closeFirstOpenAux now l.reverse).reverse

/-- Go `(s *Store) closeCurrentSession()`. -/
def Store.closeCurrentSession (s : Store) (now : Int) : Store :=
  { s with sessions := closeSessions s.sessions now }

/-- Go `(s *Store) AddStream(name, at)`: fresh stream (zero seconds,
inactive, `CreatedAt = now`); `at` clamped below by 0; positions past the
end append; otherwise splice in at `at`.  The generated random id
(`newID()`) is passed in as the `fresh` parameter. -/
def Store.addStream (s : Store) (fresh name : String) (now : Int) (at_ : Int) : Store :=
  let st : Stream :=
    { id := fresh, name := name, seconds := 0, active := false,
      startedAt := none, createdAt := now }
  let a : Int := if at_ < 0 then 0 else at_
  if (s.streams.length : Int) ≤ a then { s with streams := s.streams ++ [st] }
  else { s with streams := s.streams.take a.toNat ++ st :: s.streams.drop a.toNat }

/-- Go `(s *Store) DeleteStream(id)`. -/
def Store.deleteStream (s : Store) (id : String) : Store :=
  { s with streams := deleteFirst id s.streams }

/-- Go `(s *Store) ToggleStream(id)`: flip the stream, then compare global
activity before/after to open or close a wall-clock session. -/
def Store.toggleStream (s : Store) (id : String) (now : Int) : Store :=
  let hadActive := s.hasActive
  let s1 : Store := { s with streams := toggleFirst id now s.streams }
  if !hadActive && s1.hasActive then
    { s1 with sessions := s1.sessions ++ [{ start := now, end_ := none }] }
  else if hadActive && !s1.hasActive then s1.closeCurrentSession now
  else s1

/-- The loop of Go `StopAll`: in list order, record each active stream's id
and deactivate it; returns the collected ids and the updated streams. -/
def stopAllLoop (now : Int) : List Stream → List String × List Stream
  | [] => ([], [])
  | st :: rest =>
    let p := stopAllLoop now rest
    if st.active then (st.id :: p.1, deactivate st now :: p.2)
    else (p.1, st :: p.2)

/-- Go `(s *Store) StopAll()`: `LastActive = nil` then the collecting loop,
and a single `closeCurrentSession` if anything had been active. -/
def Store.stopAll (s : Store) (now : Int) : Store :=
  let hadActive := s.hasActive
  let p := stopAllLoop now s.streams
  let s1 : Store := { s with streams := p.2, lastActive := p.1 }
  if hadActive then s1.closeCurrentSession now else s1

/-- The loop body of Go `ContinueAll`: reactivate a stream whose id is in
the remembered set and which is not already active. -/
def reactivateIn (la : List String) (now : Int) (st : Stream) : Stream :=
  if la.contains st.id && !st.active then
    { st with active := true, startedAt := some now }
  else st

/-- Go `(s *Store) ContinueAll()`: no-op when `LastActive` is empty;
otherwise reactivate every remembered, not-already-active stream, open a
session on the no-active-to-active transition, and clear `LastActive`. -/
def Store.continueAll (s : Store) (now : Int) : Store :=
  if s.lastActive.isEmpty then s
  else
    let hadActive := s.hasActive
    let s1 : Store := { s with streams := s.streams.map (reactivateIn s.lastActive now) }
    let s2 : Store :=
      if !hadActive && s1.hasActive then
        { s1 with sessions := s1.sessions ++ [{ start := now, end_ := none }] }
      else s1
    { s2 with lastActive := [] }

/-- Go `(s *Store) TotalWallClock()`: sum of `(end or now) - start` over all
sessions (whole seconds). -/
def Store.totalWallClock (s : Store) (now : Int) : Int :=
  (s.sessions.map (fun sess =>
    (match sess.end_ with | some e => e | none => now) - sess.start)).sum

/-- Sum of banked seconds over all streams, the `streamTotal` of Go
`validate`. -/
def Store.streamTotal (s : Store) : Int :=
  (s.streams.map (fun st => st.seconds)).sum

/-- The repair pass at the end of Go `LoadStore`: an active stream persisted
without `StartedAt` is stamped with `now`. -/
def repairStreams (now : Int) (l : List Stream) : List Stream :=
  l.map (fun st =>
    if st.active && st.startedAt.isNone then { st with startedAt := some now }
    else st)

/-- Go `LoadStore` on successfully parsed data: `validate` (fail when
`wallClock > 0 && streamTotal < wallClock`), then the repair pass.
`none` is the data-inconsistency error. -/
def loadStore (d : Store) (now : Int) : Option Store :=
  if 0 < d.totalWallClock now ∧ d.streamTotal < d.totalWallClock now then none
  else some { d with streams := repairStreams now d.streams }

/-- Go `(s *Store) Save()`: the JSON record holds exactly the streams,
sessions and last-active list (`FilePath` is tagged json:"-"); marshalling
followed by unmarshalling is the identity on that record, so persistence is
modelled as the data record itself. -/
def Store.save (s : Store) : Store :=
  { streams := s.streams, sessions := s.sessions, lastActive := s.lastActive }

/-- Go `(s *Store) SaveForBackground()`' s in-memory effect: every active
stream is flushed and its `StartedAt` rebased to `now` (it stays active). -/
def Store.saveForBackground (s : Store) (now : Int) : Store :=
  { s with streams := s.streams.map (fun st =>
      if st.active then { flushStream st now with startedAt := some now }
      else st) }

/-- The comparator of Go `SortStreams`: active streams first, then by
elapsed time descending. -/
def streamLess (now : Int) (a b : Stream) : Bool :=
  if a.active ≠ b.active then a.active else decide (b.elapsed now < a.elapsed now)

/-- Go `(s *Store) SortStreams()`: a stable sort by `streamLess`
(`sort.SliceStable`); modelled with stable insertion sort under the
non-strict order induced by the comparator. -/
def Store.sortStreams (s : Store) (now : Int) : Store :=
  { s with streams := s.streams.insertionSort (fun a b => streamLess now b a = false) }

/-- The store-level effect of `performDelete` in `main.go`: the stream under
the cursor is deactivated in place (without flushing), removed by id, the
open session is closed when it was the last active stream, and the list is
re-sorted.  (The surrounding `Save`, cursor bookkeeping and tick flags are
presentation concerns.) -/
def Store.performDelete (s : Store) (i : Nat) (now : Int) : Store :=
  match s.streams[i]? with
  | none => s
  | some stream =>
    let wasActive := stream.active
    let s1 : Store :=
      if wasActive then
        { s with streams := s.streams.set i { stream with active := false, startedAt := none } }
      else s
    let s2 := s1.deleteStream stream.id
    let s3 := if wasActive && !s2.hasActive then s2.closeCurrentSession now else s2
    s3.sortStreams now

/-- Every session in the list is closed. -/
def allClosed (l : List Session) : Prop :=
  ∀ sess ∈ l, sess.end_ ≠ none

/-- Number of open sessions in the list. -/
def openCount (l : List Session) : Nat :=
  l.countP (fun sess => sess.end_.isNone)

/-- Chronological well-formedness of a session log at clock time `t`: every
closed session has `start ≤ end ≤ t` and precedes everything after it; an
open session is last and started no later than `t`. -/
def sessChain (t : Int) : List Session → Prop
  | [] => True
  | sess :: rest =>
    (sess.end_ = none → rest = [] ∧ sess.start ≤ t) ∧
    (∀ e, sess.end_ = some e →
      sess.start ≤ e ∧ e ≤ t ∧ (∀ u ∈ rest, e ≤ u.start) ∧ sessChain t rest)

/-- The new session log refines the old one position by position (same
starts, closed sessions stay closed with the same end) and may extend it:
sessions are appended and closed, never removed, merged or split. -/
def logGrows : List Session → List Session → Prop
  | [], _ => True
  | _ :: _, [] => False
  | a :: old, b :: new =>
    b.start = a.start ∧ (∀ e, a.end_ = some e → b.end_ = some e) ∧ logGrows old new

/-- One engine step at wall-clock time `t'` (clock never moves backwards),
where deletion is only applied to ids whose streams are inactive — the
discipline the presentation layer enforces via `performDelete`. -/
inductive Step : Int → Store → Int → Store → Prop where
  | add (t : Int) (s : Store) (t' : Int) (fresh name : String) (pos : Int)
      (hle : t ≤ t') : Step t s t' (s.addStream fresh name t' pos)
  | toggle (t : Int) (s : Store) (t' : Int) (id : String)
      (hle : t ≤ t') : Step t s t' (s.toggleStream id t')
  | stopAll (t : Int) (s : Store) (t' : Int)
      (hle : t ≤ t') : Step t s t' (s.stopAll t')
  | continueAll (t : Int) (s : Store) (t' : Int)
      (hle : t ≤ t') : Step t s t' (s.continueAll t')
  | delete (t : Int) (s : Store) (t' : Int) (id : String) (hle : t ≤ t')
      (hinactive : ∀ st ∈ s.streams, st.id = id → st.active = false) :
      Step t s t' (s.deleteStream id)

/-- Stores reachable from the empty store by engine steps with
non-decreasing wall-clock samples. -/
inductive Reach : Int → Store → Prop where
  | init (t : Int) : Reach t { streams := [], sessions := [], lastActive := [] }
  | step (t : Int) (s : Store) (t' : Int) (s' : Store) :
      Reach t s → Step t s t' s' → Reach t' s'

/-- The induction invariant: the session log is chronologically well formed
and, when nothing is active, fully closed. -/
def storeInv (t : Int) (s : Store) : Prop :=
  sessChain t s.sessions ∧ (s.hasActive = false → allClosed s.sessions)

theorem hasActiveL_perm {l l' : List Stream} (h : l.Perm l') :
    hasActiveL l = hasActiveL l' := by
  unfold hasActiveL
  rw [Bool.eq_iff_iff, List.any_eq_true, List.any_eq_true]
  constructor
  · rintro ⟨x, hx, hp⟩; exact ⟨x, h.mem_iff.mp hx, hp⟩
  · rintro ⟨x, hx, hp⟩; exact ⟨x, h.mem_iff.mpr hx, hp⟩

theorem closeFirstOpenAux_of_allClosed {l : List Session} (now : Int)
    (h : allClosed l) : closeFirstOpenAux now l = l := by
  induction l with
  | nil => rfl
  | cons sess rest ih =>
    have hsess := h sess (List.mem_cons_self _ _)
    unfold closeFirstOpenAux
    cases he : sess.end_ with
    | none => exact absurd he hsess
    | some e =>
      rw [ih (fun u hu => h u (List.mem_cons_of_mem _ hu))]

theorem closeFirstOpenAux_append_closed {m : List Session} (now : Int)
    (r : List Session) (h : allClosed m) :
    closeFirstOpenAux now (m ++ r) = m ++ closeFirstOpenAux now r := by
  induction m with
  | nil => rfl
  | cons sess rest ih =>
    have hsess := h sess (List.mem_cons_self _ _)
    cases he : sess.end_ with
    | none => exact absurd he hsess
    | some e =>
      simp only [List.cons_append, closeFirstOpenAux, he, List.append_eq,
        ih (fun u hu => h u (List.mem_cons_of_mem _ hu))]

theorem closeFirstOpenAux_append_open {m : List Session} (now : Int)
    (r : List Session) (h : ¬ allClosed m) :
    closeFirstOpenAux now (m ++ r) = closeFirstOpenAux now m ++ r := by
  induction m with
  | nil => exact absurd (fun u hu => absurd hu (List.not_mem_nil u)) h
  | cons sess rest ih =>
    cases he : sess.end_ with
    | none => simp only [List.cons_append, closeFirstOpenAux, he, List.append_eq]
    | some e =>
      have hrest : ¬ allClosed rest := by
        intro hall
        exact h (fun u hu => by
          rcases List.mem_cons.mp hu with h1 | h2
          · subst h1; simp [he]
          · exact hall u h2)
      simp only [List.cons_append, closeFirstOpenAux, he, List.append_eq, ih hrest]

theorem closeSessions_of_allClosed {l : List Session} (now : Int)
    (h : allClosed l) : closeSessions l now = l := by
  unfold closeSessions
  rw [closeFirstOpenAux_of_allClosed now (fun u hu => h u (List.mem_reverse.mp hu)),
    List.reverse_reverse]

theorem closeSessions_decomp (now : Int) {pre post : List Session} {sess : Session}
    (hopen : sess.end_ = none) (hpost : allClosed post) :
    closeSessions (pre ++ sess :: post) now =
      pre ++ { sess with end_ := some now } :: post := by
  unfold closeSessions
  have h1 : (pre ++ sess :: post).reverse = post.reverse ++ sess :: pre.reverse := by
    simp
  rw [h1, closeFirstOpenAux_append_closed now _
    (fun u hu => hpost u (List.mem_reverse.mp hu))]
  have h2 : closeFirstOpenAux now (sess :: pre.reverse)
      = { sess with end_ := some now } :: pre.reverse := by
    unfold closeFirstOpenAux
    rw [hopen]
  rw [h2]
  simp

theorem lastOpen_decomp {l : List Session} (h : ¬ allClosed l) :
    ∃ pre sess post, l = pre ++ sess :: post ∧ sess.end_ = none ∧ allClosed post := by
  induction l with
  | nil => exact absurd (fun u hu => absurd hu (List.not_mem_nil u)) h
  | cons sess rest ih =>
    by_cases hrest : allClosed rest
    · have hsess : sess.end_ = none := by
        by_contra hne
        exact h (fun u hu => by
          rcases List.mem_cons.mp hu with h1 | h2
          · subst h1; exact hne
          · exact hrest u h2)
      exact ⟨[], sess, rest, rfl, hsess, hrest⟩
    · obtain ⟨pre, so, post, heq, hopen, hpost⟩ := ih hrest
      exact ⟨sess :: pre, so, post, by rw [heq]; rfl, hopen, hpost⟩

theorem allClosed_append {l m : List Session} (hl : allClosed l) (hm : allClosed m) :
    allClosed (l ++ m) := by
  intro u hu
  rcases List.mem_append.mp hu with h1 | h2
  · exact hl u h1
  · exact hm u h2

theorem starts_closeFirstOpenAux (now : Int) (l : List Session) :
    (closeFirstOpenAux now l).map (fun sess => sess.start) =
      l.map (fun sess => sess.start) := by
  induction l with
  | nil => rfl
  | cons sess rest ih =>
    unfold closeFirstOpenAux
    cases he : sess.end_ with
    | none => rfl
    | some e => simp only [List.map_cons, ih]

theorem starts_closeSessions (now : Int) (l : List Session) :
    (closeSessions l now).map (fun sess => sess.start) =
      l.map (fun sess => sess.start) := by
  unfold closeSessions
  rw [List.map_reverse, starts_closeFirstOpenAux, List.map_reverse,
    List.reverse_reverse]

theorem length_closeFirstOpenAux (now : Int) (l : List Session) :
    (closeFirstOpenAux now l).length = l.length := by
  induction l with
  | nil => rfl
  | cons sess rest ih =>
    unfold closeFirstOpenAux
    cases he : sess.end_ with
    | none => rfl
    | some e => simp only [List.length_cons, ih]

theorem length_closeSessions (now : Int) (l : List Session) :
    (closeSessions l now).length = l.length := by
  unfold closeSessions
  rw [List.length_reverse, length_closeFirstOpenAux, List.length_reverse]

theorem sessChain_mono {t t' : Int} (h : t ≤ t') :
    ∀ {l : List Session}, sessChain t l → sessChain t' l := by
  intro l
  induction l with
  | nil => intro _; trivial
  | cons sess rest ih =>
    intro hc
    refine ⟨fun he => ⟨(hc.1 he).1, le_trans (hc.1 he).2 h⟩, fun e he => ?_⟩
    obtain ⟨h1, h2, h3, h4⟩ := hc.2 e he
    exact ⟨h1, le_trans h2 h, h3, ih h4⟩

theorem mem_closeSessions_start {u : Session} {l : List Session} {n : Int}
    (hu : u ∈ closeSessions l n) : ∃ u0 ∈ l, u0.start = u.start := by
  have h1 : u.start ∈ (closeSessions l n).map (fun sess => sess.start) :=
    List.mem_map_of_mem _ hu
  rw [starts_closeSessions] at h1
  obtain ⟨u0, hu0, he⟩ := List.mem_map.mp h1
  exact ⟨u0, hu0, he⟩

theorem sessChain_openCount {t : Int} :
    ∀ {l : List Session}, sessChain t l → openCount l ≤ 1 := by
  intro l
  induction l with
  | nil => intro _; simp [openCount]
  | cons sess rest ih =>
    intro hc
    cases he : sess.end_ with
    | none =>
      rw [(hc.1 he).1]
      simp [openCount, List.countP_cons, he]
    | some e =>
      have := ih (hc.2 e he).2.2.2
      simp only [openCount, List.countP_cons, he] at this ⊢
      simpa using this

theorem sessChain_ordered {t : Int} :
    ∀ {l : List Session}, sessChain t l →
      ∀ (i j : Nat) (si sj : Session) (ei : Int), i < j →
        l[i]? = some si → l[j]? = some sj →
        si.end_ = some ei → ei ≤ sj.start := by
  intro l
  induction l with
  | nil => intro _ i j si sj ei _ hi _ _; simp at hi
  | cons sess rest ih =>
    intro hc i j si sj ei hij hi hj hei
    cases j with
    | zero => omega
    | succ jj =>
      rw [List.getElem?_cons_succ] at hj
      have hjmem : sj ∈ rest := List.mem_iff_getElem?.mpr ⟨jj, hj⟩
      cases i with
      | zero =>
        rw [List.getElem?_cons_zero] at hi
        injection hi with hi
        subst hi
        exact (hc.2 ei hei).2.2.1 sj hjmem
      | succ ii =>
        rw [List.getElem?_cons_succ] at hi
        cases he : sess.end_ with
        | none =>
          rw [(hc.1 he).1] at hi
          simp at hi
        | some e =>
          exact ih (hc.2 e he).2.2.2 ii jj si sj ei (by omega) hi hj hei

theorem sessChain_start_le_end {t : Int} :
    ∀ {l : List Session}, sessChain t l →
      ∀ sess ∈ l, ∀ e, sess.end_ = some e → sess.start ≤ e := by
  intro l
  induction l with
  | nil => intro _ sess h; exact absurd h (List.not_mem_nil sess)
  | cons hd rest ih =>
    intro hc sess hmem e he
    rcases List.mem_cons.mp hmem with h1 | h2
    · subst h1; exact (hc.2 e he).1
    · cases hhd : hd.end_ with
      | none =>
        rw [(hc.1 hhd).1] at h2
        exact absurd h2 (List.not_mem_nil sess)
      | some e2 => exact ih (hc.2 e2 hhd).2.2.2 sess h2 e he

theorem sessChain_append_open {t n : Int} (hn : t ≤ n) :
    ∀ {l : List Session}, sessChain t l → allClosed l →
      sessChain n (l ++ [{ start := n, end_ := none }]) := by
  intro l
  induction l with
  | nil =>
    intro _ _
    exact ⟨fun _ => ⟨rfl, le_refl n⟩, fun e he => by simp at he⟩
  | cons sess rest ih =>
    intro hc hall
    have hsess := hall sess (List.mem_cons_self _ _)
    cases he : sess.end_ with
    | none => exact absurd he hsess
    | some e =>
      obtain ⟨h1, h2, h3, h4⟩ := hc.2 e he
      refine ⟨fun habs => absurd habs hsess, fun e2 he2 => ?_⟩
      rw [he] at he2
      injection he2 with he2
      subst he2
      refine ⟨h1, le_trans h2 hn, ?_, ih h4 (fun u hu => hall u (List.mem_cons_of_mem _ hu))⟩
      intro u hu
      rcases List.mem_append.mp hu with hu1 | hu2
      · exact h3 u hu1
      · rw [List.mem_singleton.mp hu2]
        exact le_trans h2 hn

theorem closeSessions_cons_of_open_in {sess : Session} {rest : List Session} {n : Int}
    (hrest : ¬ allClosed rest) :
    closeSessions (sess :: rest) n = sess :: closeSessions rest n := by
  unfold closeSessions
  have h1 : (sess :: rest).reverse = rest.reverse ++ [sess] := by simp
  have h2 : ¬ allClosed rest.reverse := fun hall =>
    hrest (fun u hu => hall u (List.mem_reverse.mpr hu))
  rw [h1, closeFirstOpenAux_append_open n [sess] h2]
  simp

theorem sessChain_close {t n : Int} (hn : t ≤ n) :
    ∀ {l : List Session}, sessChain t l →
      sessChain n (closeSessions l n) ∧ allClosed (closeSessions l n) := by
  intro l
  induction l with
  | nil =>
    intro _
    constructor
    · trivial
    · intro u hu; exact absurd hu (List.not_mem_nil u)
  | cons sess rest ih =>
    intro hc
    cases he : sess.end_ with
    | none =>
      have hrest := (hc.1 he).1
      have hstart := (hc.1 he).2
      subst hrest
      have hdecomp : closeSessions ([] ++ sess :: []) n
          = [] ++ { sess with end_ := some n } :: [] :=
        closeSessions_decomp n he (fun u hu => absurd hu (List.not_mem_nil u))
      simp only [List.nil_append] at hdecomp
      rw [hdecomp]
      constructor
      · refine ⟨fun habs => by simp at habs, fun e2 he2 => ?_⟩
        simp only [Option.some.injEq] at he2
        subst he2
        exact ⟨le_trans hstart hn, le_refl n, fun u hu => absurd hu (List.not_mem_nil u), trivial⟩
      · intro u hu
        rw [List.mem_singleton.mp hu]
        simp
    | some e =>
      obtain ⟨h1, h2, h3, h4⟩ := hc.2 e he
      by_cases hall : allClosed rest
      · have hclosed : allClosed (sess :: rest) := by
          intro u hu
          rcases List.mem_cons.mp hu with hu1 | hu2
          · subst hu1; simp [he]
          · exact hall u hu2
        rw [closeSessions_of_allClosed n hclosed]
        exact ⟨sessChain_mono hn hc, hclosed⟩
      · rw [closeSessions_cons_of_open_in hall]
        obtain ⟨ihc, iha⟩ := ih h4
        constructor
        · refine ⟨fun habs => by rw [he] at habs; simp at habs, fun e2 he2 => ?_⟩
          rw [he] at he2
          injection he2 with he2
          subst he2
          refine ⟨h1, le_trans h2 hn, ?_, ihc⟩
          intro u hu
          obtain ⟨u0, hu0, hustart⟩ := mem_closeSessions_start hu
          rw [← hustart]
          exact h3 u0 hu0
        · intro u hu
          rcases List.mem_cons.mp hu with hu1 | hu2
          · subst hu1; simp [he]
          · exact iha u hu2

theorem logGrows_refl : ∀ l : List Session, logGrows l l := by
  intro l
  induction l with
  | nil => trivial
  | cons sess rest ih => exact ⟨rfl, fun e he => he, ih⟩

theorem logGrows_append : ∀ l m : List Session, logGrows l (l ++ m) := by
  intro l m
  induction l with
  | nil => trivial
  | cons sess rest ih => exact ⟨rfl, fun e he => he, ih⟩

theorem logGrows_set : ∀ (pre : List Session) {a b : Session} (post : List Session),
    b.start = a.start → (∀ e, a.end_ = some e → b.end_ = some e) →
    logGrows (pre ++ a :: post) (pre ++ b :: post) := by
  intro pre
  induction pre with
  | nil => intro a b post hs hend; exact ⟨hs, hend, logGrows_refl post⟩
  | cons hd rest ih =>
    intro a b post hs hend
    exact ⟨rfl, fun e he => he, ih post hs hend⟩

theorem logGrows_closeSessions (l : List Session) (n : Int) :
    logGrows l (closeSessions l n) := by
  by_cases hall : allClosed l
  · rw [closeSessions_of_allClosed n hall]; exact logGrows_refl l
  · obtain ⟨pre, sess, post, heq, hopen, hpost⟩ := lastOpen_decomp hall
    subst heq
    rw [closeSessions_decomp n hopen hpost]
    exact logGrows_set pre post rfl (fun e he => by rw [hopen] at he; exact absurd he (by simp))

theorem addStream_streams (s : Store) (fresh name : String) (now pos : Int) :
    (s.addStream fresh name now pos).streams =
      s.streams.take (min pos.toNat s.streams.length) ++
        ({ id := fresh, name := name, seconds := 0, active := false,
           startedAt := none, createdAt := now } : Stream) ::
          s.streams.drop (min pos.toNat s.streams.length) := by
  simp only [Store.addStream]
  by_cases h1 : pos < 0
  · have hpn : pos.toNat = 0 := by omega
    simp only [if_pos h1, hpn, Nat.zero_min]
    by_cases h2 : (s.streams.length : Int) ≤ 0
    · have hlen : s.streams = [] := List.length_eq_zero.mp (by omega)
      rw [hlen]
      simp
    · rw [if_neg h2]
      simp
  · push_neg at h1
    simp only [if_neg (not_lt.mpr h1)]
    by_cases h2 : (s.streams.length : Int) ≤ pos
    · have hmin : min pos.toNat s.streams.length = s.streams.length := by omega
      rw [if_pos h2, hmin, List.take_length, List.drop_length]
    · have hmin : min pos.toNat s.streams.length = pos.toNat := by omega
      rw [if_neg h2, hmin]

theorem addStream_sessions (s : Store) (fresh name : String) (now pos : Int) :
    (s.addStream fresh name now pos).sessions = s.sessions := by
  simp only [Store.addStream]
  by_cases h1 : pos < 0
  · simp only [if_pos h1]
    split <;> rfl
  · simp only [if_neg h1]
    split <;> rfl

theorem addStream_lastActive (s : Store) (fresh name : String) (now pos : Int) :
    (s.addStream fresh name now pos).lastActive = s.lastActive := by
  simp only [Store.addStream]
  by_cases h1 : pos < 0
  · simp only [if_pos h1]
    split <;> rfl
  · simp only [if_neg h1]
    split <;> rfl

theorem hasActiveL_insert {st : Stream} (hst : st.active = false)
    (l : List Stream) (k : Nat) :
    hasActiveL (l.take k ++ st :: l.drop k) = hasActiveL l := by
  unfold hasActiveL
  rw [List.any_append, List.any_cons, hst]
  simp only [Bool.false_or]
  rw [← List.any_append, List.take_append_drop]

theorem addStream_hasActive (s : Store) (fresh name : String) (now pos : Int) :
    (s.addStream fresh name now pos).hasActive = s.hasActive := by
  unfold Store.hasActive
  rw [addStream_streams]
  exact hasActiveL_insert rfl s.streams _

theorem toggleStream_streams (s : Store) (id : String) (now : Int) :
    (s.toggleStream id now).streams = toggleFirst id now s.streams := by
  simp only [Store.toggleStream, Store.closeCurrentSession]
  split
  · rfl
  · split <;> rfl

theorem toggleStream_lastActive (s : Store) (id : String) (now : Int) :
    (s.toggleStream id now).lastActive = s.lastActive := by
  simp only [Store.toggleStream, Store.closeCurrentSession]
  split
  · rfl
  · split <;> rfl

theorem toggleStream_hasActive (s : Store) (id : String) (now : Int) :
    (s.toggleStream id now).hasActive = hasActiveL (toggleFirst id now s.streams) := by
  unfold Store.hasActive
  rw [toggleStream_streams]

theorem toggleStream_sessions_open {s : Store} {id : String} {now : Int}
    (ha : s.hasActive = false) (hb : hasActiveL (toggleFirst id now s.streams) = true) :
    (s.toggleStream id now).sessions = s.sessions ++ [{ start := now, end_ := none }] := by
  have ha2 : hasActiveL s.streams = false := ha
  simp [Store.toggleStream, Store.closeCurrentSession, Store.hasActive, ha2, hb]

theorem toggleStream_sessions_close {s : Store} {id : String} {now : Int}
    (ha : s.hasActive = true) (hb : hasActiveL (toggleFirst id now s.streams) = false) :
    (s.toggleStream id now).sessions = closeSessions s.sessions now := by
  have ha2 : hasActiveL s.streams = true := ha
  simp [Store.toggleStream, Store.closeCurrentSession, Store.hasActive, ha2, hb]

theorem toggleStream_sessions_same {s : Store} {id : String} {now : Int}
    (hab : s.hasActive = hasActiveL (toggleFirst id now s.streams)) :
    (s.toggleStream id now).sessions = s.sessions := by
  cases ha : s.hasActive <;> rw [ha] at hab <;>
    have ha2 : hasActiveL s.streams = _ := ha <;>
    simp [Store.toggleStream, Store.closeCurrentSession, Store.hasActive, ha2, ← hab]

theorem stopAllLoop_fst (now : Int) (l : List Stream) :
    (stopAllLoop now l).1 =
      (l.filter (fun st => st.active)).map (fun st => st.id) := by
  induction l with
  | nil => rfl
  | cons st rest ih =>
    cases hst : st.active <;>
      simp [stopAllLoop, List.filter_cons, hst, ih]

theorem stopAllLoop_snd (now : Int) (l : List Stream) :
    (stopAllLoop now l).2 =
      l.map (fun st => if st.active then deactivate st now else st) := by
  induction l with
  | nil => rfl
  | cons st rest ih =>
    cases hst : st.active <;>
      simp [stopAllLoop, hst, ih]

theorem stopAllLoop_snd_inactive (now : Int) (l : List Stream) :
    hasActiveL (stopAllLoop now l).2 = false := by
  rw [stopAllLoop_snd]
  unfold hasActiveL
  rw [List.any_eq_false]
  intro x hx
  obtain ⟨y, _, hy⟩ := List.mem_map.mp hx
  cases hya : y.active
  · rw [← hy, if_neg (by simp [hya])]
    simp [hya]
  · rw [← hy, if_pos hya]
    simp [deactivate]

theorem stopAll_streams (s : Store) (now : Int) :
    (s.stopAll now).streams = (stopAllLoop now s.streams).2 := by
  simp only [Store.stopAll, Store.closeCurrentSession]
  split <;> rfl

theorem stopAll_lastActive (s : Store) (now : Int) :
    (s.stopAll now).lastActive = (stopAllLoop now s.streams).1 := by
  simp only [Store.stopAll, Store.closeCurrentSession]
  split <;> rfl

theorem stopAll_hasActive (s : Store) (now : Int) :
    (s.stopAll now).hasActive = false := by
  unfold Store.hasActive
  rw [stopAll_streams]
  exact stopAllLoop_snd_inactive now s.streams

theorem stopAll_sessions (s : Store) (now : Int) :
    (s.stopAll now).sessions =
      if s.hasActive = true then closeSessions s.sessions now else s.sessions := by
  simp only [Store.stopAll, Store.closeCurrentSession]
  cases ha : s.hasActive <;> simp [ha]

theorem continueAll_of_isEmpty {s : Store} (now : Int)
    (h : s.lastActive.isEmpty = true) : s.continueAll now = s := by
  simp [Store.continueAll, h]

theorem continueAll_streams {s : Store} (now : Int)
    (h : s.lastActive.isEmpty = false) :
    (s.continueAll now).streams = s.streams.map (reactivateIn s.lastActive now) := by
  simp only [Store.continueAll, h, Bool.false_eq_true, if_false]
  split <;> rfl

theorem continueAll_lastActive (s : Store) (now : Int) :
    (s.continueAll now).lastActive = [] := by
  simp only [Store.continueAll]
  cases h : s.lastActive.isEmpty
  · simp only [Bool.false_eq_true, if_false]
  · simp only [if_true]
    exact List.isEmpty_iff.mp h

theorem continueAll_of_lastActive_nil {s : Store} (now : Int)
    (h : s.lastActive = []) : s.continueAll now = s := by
  apply continueAll_of_isEmpty
  rw [h]
  rfl

theorem reactivateIn_active_mono {la : List String} {now : Int} {st : Stream}
    (h : st.active = true) : reactivateIn la now st = st := by
  unfold reactivateIn
  rw [if_neg]
  rw [h]
  simp

theorem continueAll_active_mono {s : Store} (now : Int)
    (h : s.hasActive = true) :
    hasActiveL (s.streams.map (reactivateIn s.lastActive now)) = true := by
  unfold Store.hasActive hasActiveL at h
  unfold hasActiveL
  obtain ⟨x, hx, hxa⟩ := List.any_eq_true.mp h
  refine List.any_eq_true.mpr ⟨reactivateIn s.lastActive now x, List.mem_map_of_mem _ hx, ?_⟩
  rw [reactivateIn_active_mono hxa]
  exact hxa

theorem continueAll_sessions_open {s : Store} {now : Int}
    (h : s.lastActive.isEmpty = false) (ha : s.hasActive = false)
    (hb : hasActiveL (s.streams.map (reactivateIn s.lastActive now)) = true) :
    (s.continueAll now).sessions = s.sessions ++ [{ start := now, end_ := none }] := by
  have ha2 : hasActiveL s.streams = false := ha
  simp [Store.continueAll, h, Store.hasActive, ha2, hb]

theorem continueAll_sessions_same {s : Store} {now : Int}
    (h : s.lastActive.isEmpty = false)
    (hab : ¬(s.hasActive = false ∧
      hasActiveL (s.streams.map (reactivateIn s.lastActive now)) = true)) :
    (s.continueAll now).sessions = s.sessions := by
  cases ha : s.hasActive <;>
    have ha2 : hasActiveL s.streams = _ := ha <;>
    cases hb : hasActiveL (s.streams.map (reactivateIn s.lastActive now))
  · simp [Store.continueAll, h, Store.hasActive, ha2, hb]
  · exact absurd ⟨ha, hb⟩ hab
  · simp [Store.continueAll, h, Store.hasActive, ha2, hb]
  · simp [Store.continueAll, h, Store.hasActive, ha2, hb]

theorem continueAll_hasActive {s : Store} (now : Int)
    (h : s.lastActive.isEmpty = false) :
    (s.continueAll now).hasActive =
      hasActiveL (s.streams.map (reactivateIn s.lastActive now)) := by
  unfold Store.hasActive
  rw [continueAll_streams now h]

theorem hasActiveL_deleteFirst_of_inactive {id : String} :
    ∀ {l : List Stream}, (∀ st ∈ l, st.id = id → st.active = false) →
      hasActiveL (deleteFirst id l) = hasActiveL l := by
  intro l
  induction l with
  | nil => intro _; rfl
  | cons st rest ih =>
    intro h
    unfold deleteFirst
    by_cases hid : st.id = id
    · rw [if_pos hid]
      unfold hasActiveL
      rw [List.any_cons, h st (List.mem_cons_self _ _) hid]
      simp [hasActiveL]
    · rw [if_neg hid]
      unfold hasActiveL
      rw [List.any_cons, List.any_cons]
      have := ih (fun u hu hid2 => h u (List.mem_cons_of_mem _ hu) hid2)
      unfold hasActiveL at this
      rw [this]

theorem step_storeInv {t : Int} {s : Store} {t' : Int} {s' : Store}
    (hstep : Step t s t' s') (hinv : storeInv t s) : storeInv t' s' := by
  cases hstep with
  | add fresh name pos hle =>
    constructor
    · rw [addStream_sessions]
      exact sessChain_mono hle hinv.1
    · intro h
      rw [addStream_hasActive] at h
      rw [addStream_sessions]
      exact hinv.2 h
  | toggle id hle =>
    cases ha : s.hasActive <;> cases hb : hasActiveL (toggleFirst id t' s.streams)
    · have hsess := @toggleStream_sessions_same s id t'
        (by rw [ha, hb])
      constructor
      · rw [hsess]; exact sessChain_mono hle hinv.1
      · intro _; rw [hsess]; exact hinv.2 ha
    · have hsess := toggleStream_sessions_open ha hb
      constructor
      · rw [hsess]; exact sessChain_append_open hle hinv.1 (hinv.2 ha)
      · intro h
        rw [toggleStream_hasActive, hb] at h
        exact absurd h (by simp)
    · have hsess := toggleStream_sessions_close ha hb
      obtain ⟨hc, hcl⟩ := sessChain_close hle hinv.1
      exact ⟨by rw [hsess]; exact hc, fun _ => by rw [hsess]; exact hcl⟩
    · have hsess := @toggleStream_sessions_same s id t'
        (by rw [ha, hb])
      constructor
      · rw [hsess]; exact sessChain_mono hle hinv.1
      · intro h
        rw [toggleStream_hasActive, hb] at h
        exact absurd h (by simp)
  | stopAll hle =>
    cases ha : s.hasActive
    · have hsess : (s.stopAll t').sessions = s.sessions := by
        rw [stopAll_sessions, ha]
        simp
      constructor
      · rw [hsess]; exact sessChain_mono hle hinv.1
      · intro _; rw [hsess]; exact hinv.2 ha
    · have hsess : (s.stopAll t').sessions = closeSessions s.sessions t' := by
        rw [stopAll_sessions, ha, if_pos rfl]
      obtain ⟨hc, hcl⟩ := sessChain_close hle hinv.1
      exact ⟨by rw [hsess]; exact hc, fun _ => by rw [hsess]; exact hcl⟩
  | continueAll hle =>
    cases hemp : s.lastActive.isEmpty
    · cases ha : s.hasActive <;>
        cases hb : hasActiveL (s.streams.map (reactivateIn s.lastActive t'))
      · have hsess := continueAll_sessions_same hemp (by intro hx; rw [hb] at hx; exact absurd hx.2 (by simp))
        constructor
        · rw [hsess]; exact sessChain_mono hle hinv.1
        · intro _; rw [hsess]; exact hinv.2 ha
      · have hsess := continueAll_sessions_open hemp ha hb
        constructor
        · rw [hsess]; exact sessChain_append_open hle hinv.1 (hinv.2 ha)
        · intro h
          rw [continueAll_hasActive t' hemp, hb] at h
          exact absurd h (by simp)
      · exact absurd (continueAll_active_mono t' ha) (by rw [hb]; simp)
      · have hsess := @continueAll_sessions_same s t' hemp
          (by intro hx; rw [ha] at hx; exact absurd hx.1 (by simp))
        constructor
        · rw [hsess]; exact sessChain_mono hle hinv.1
        · intro h
          rw [continueAll_hasActive t' hemp, hb] at h
          exact absurd h (by simp)
    · rw [continueAll_of_isEmpty t' hemp]
      exact ⟨sessChain_mono hle hinv.1, hinv.2⟩
  | delete id hle hinactive =>
    have hact : (s.deleteStream id).hasActive = s.hasActive :=
      hasActiveL_deleteFirst_of_inactive hinactive
    constructor
    · exact sessChain_mono hle hinv.1
    · intro h
      rw [hact] at h
      exact hinv.2 h

theorem reach_storeInv {t : Int} {s : Store} (h : Reach t s) : storeInv t s := by
  induction h with
  | init t => exact ⟨trivial, fun _ u hu => absurd hu (List.not_mem_nil u)⟩
  | step t s t' s' hr hstep ih => exact step_storeInv hstep ih

theorem step_logGrows {t : Int} {s : Store} {t' : Int} {s' : Store}
    (hstep : Step t s t' s') : logGrows s.sessions s'.sessions := by
  cases hstep with
  | add fresh name pos hle =>
    rw [addStream_sessions]
    exact logGrows_refl _
  | toggle id hle =>
    cases ha : s.hasActive <;> cases hb : hasActiveL (toggleFirst id t' s.streams)
    · rw [@toggleStream_sessions_same s id t' (by rw [ha, hb])]
      exact logGrows_refl _
    · rw [toggleStream_sessions_open ha hb]
      exact logGrows_append _ _
    · rw [toggleStream_sessions_close ha hb]
      exact logGrows_closeSessions _ _
    · rw [@toggleStream_sessions_same s id t' (by rw [ha, hb])]
      exact logGrows_refl _
  | stopAll hle =>
    cases ha : s.hasActive
    · rw [stopAll_sessions, ha]
      simp only [Bool.false_eq_true, if_false]
      exact logGrows_refl _
    · rw [stopAll_sessions, ha, if_pos rfl]
      exact logGrows_closeSessions _ _
  | continueAll hle =>
    cases hemp : s.lastActive.isEmpty
    · by_cases hcond : s.hasActive = false ∧
        hasActiveL (s.streams.map (reactivateIn s.lastActive t')) = true
      · rw [continueAll_sessions_open hemp hcond.1 hcond.2]
        exact logGrows_append _ _
      · rw [continueAll_sessions_same hemp hcond]
        exact logGrows_refl _
    · rw [continueAll_of_isEmpty t' hemp]
      exact logGrows_refl _
  | delete id hle hinactive =>
    exact logGrows_refl _

theorem mem_deleteFirst {x : Stream} {id : String} :
    ∀ {l : List Stream}, x ∈ deleteFirst id l → x ∈ l := by
  intro l
  induction l with
  | nil => intro h; exact absurd h (List.not_mem_nil x)
  | cons st rest ih =>
    intro h
    unfold deleteFirst at h
    by_cases hid : st.id = id
    · rw [if_pos hid] at h
      exact List.mem_cons_of_mem _ h
    · rw [if_neg hid] at h
      rcases List.mem_cons.mp h with h1 | h2
      · exact h1 ▸ List.mem_cons_self _ _
      · exact List.mem_cons_of_mem _ (ih h2)

theorem toggleFirst_getElem? (id : String) (now : Int) :
    ∀ (l : List Stream) (i : Nat) (st st' : Stream),
      l[i]? = some st → (toggleFirst id now l)[i]? = some st' →
      st' = st ∨ (st.id = id ∧
        st' = (if st.active = true then deactivate st now
               else { st with active := true, startedAt := some now })) := by
  intro l
  induction l with
  | nil => intro i st st' h; simp at h
  | cons hd rest ih =>
    intro i st st' hst hst'
    unfold toggleFirst at hst'
    by_cases hid : hd.id = id
    · rw [if_pos hid] at hst'
      cases i with
      | zero =>
        rw [List.getElem?_cons_zero] at hst hst'
        injection hst with hst
        injection hst' with hst'
        subst hst
        exact Or.inr ⟨hid, hst'.symm⟩
      | succ n =>
        rw [List.getElem?_cons_succ] at hst hst'
        rw [hst] at hst'
        injection hst' with hst'
        exact Or.inl hst'.symm
    · rw [if_neg hid] at hst'
      cases i with
      | zero =>
        rw [List.getElem?_cons_zero] at hst hst'
        injection hst with hst
        injection hst' with hst'
        subst hst
        exact Or.inl hst'.symm
      | succ n =>
        rw [List.getElem?_cons_succ] at hst hst'
        exact ih n st st' hst hst'

theorem hasActiveL_eq_false {l : List Stream} :
    hasActiveL l = false ↔ ∀ x ∈ l, x.active = false := by
  unfold hasActiveL
  rw [List.any_eq_false]
  constructor
  · intro h x hx
    have := h x hx
    simpa using this
  · intro h x hx
    simp [h x hx]

theorem openCount_closeFirstOpenAux_le (n : Int) (l : List Session) :
    (closeFirstOpenAux n l).countP (fun sess => sess.end_.isNone) ≤
      l.countP (fun sess => sess.end_.isNone) := by
  induction l with
  | nil => simp [closeFirstOpenAux]
  | cons sess rest ih =>
    cases he : sess.end_ with
    | none =>
      simp only [closeFirstOpenAux, he, List.countP_cons]
      simp [he]
    | some e =>
      simp only [closeFirstOpenAux, he, List.countP_cons, Option.isNone_some,
        Bool.false_eq_true, if_false]
      omega

theorem le_openCount_closeFirstOpenAux (n : Int) (l : List Session) :
    l.countP (fun sess => sess.end_.isNone) ≤
      (closeFirstOpenAux n l).countP (fun sess => sess.end_.isNone) + 1 := by
  induction l with
  | nil => simp [closeFirstOpenAux]
  | cons sess rest ih =>
    cases he : sess.end_ with
    | none =>
      simp only [closeFirstOpenAux, he, List.countP_cons]
      simp [he]
    | some e =>
      simp only [closeFirstOpenAux, he, List.countP_cons, Option.isNone_some,
        Bool.false_eq_true, if_false]
      omega

theorem openCount_closeSessions_le (n : Int) (l : List Session) :
    openCount (closeSessions l n) ≤ openCount l := by
  unfold openCount closeSessions
  rw [← List.countP_reverse _ l]
  calc ((closeFirstOpenAux n l.reverse).reverse).countP (fun sess => sess.end_.isNone)
      = (closeFirstOpenAux n l.reverse).countP (fun sess => sess.end_.isNone) :=
        List.countP_reverse _ _
    _ ≤ l.reverse.countP (fun sess => sess.end_.isNone) :=
        openCount_closeFirstOpenAux_le n l.reverse

theorem le_openCount_closeSessions (n : Int) (l : List Session) :
    openCount l ≤ openCount (closeSessions l n) + 1 := by
  unfold openCount closeSessions
  rw [← List.countP_reverse _ l, List.countP_reverse _ (closeFirstOpenAux n l.reverse)]
  exact le_openCount_closeFirstOpenAux n l.reverse

theorem allClosed_iff_openCount {l : List Session} :
    allClosed l ↔ openCount l = 0 := by
  unfold allClosed openCount
  rw [List.countP_eq_zero]
  constructor
  · intro h sess hs
    have := h sess hs
    simp [Option.isNone_iff_eq_none]
    exact this
  · intro h sess hs
    have := h sess hs
    simp [Option.isNone_iff_eq_none] at this
    exact this

theorem allClosed_closeSessions_of_openCount {l : List Session} {n : Int}
    (h : openCount l ≤ 1) : allClosed (closeSessions l n) := by
  by_cases hall : allClosed l
  · rw [closeSessions_of_allClosed n hall]
    exact hall
  · obtain ⟨pre, sess, post, heq, hopen, hpost⟩ := lastOpen_decomp hall
    subst heq
    rw [closeSessions_decomp n hopen hpost]
    have hpre : allClosed pre := by
      rw [allClosed_iff_openCount]
      rw [allClosed_iff_openCount] at hpost
      unfold openCount at h hpost ⊢
      rw [List.countP_append, List.countP_cons] at h
      simp [hopen] at h
      omega
    intro u hu
    rcases List.mem_append.mp hu with h1 | h2
    · exact hpre u h1
    · rcases List.mem_cons.mp h2 with h3 | h4
      · subst h3; simp
      · exact hpost u h4

theorem sortStreams_streams (s : Store) (now : Int) :
    (s.sortStreams now).streams =
      s.streams.insertionSort (fun a b => streamLess now b a = false) := rfl

theorem sortStreams_sessions (s : Store) (now : Int) :
    (s.sortStreams now).sessions = s.sessions := rfl

theorem sortStreams_lastActive (s : Store) (now : Int) :
    (s.sortStreams now).lastActive = s.lastActive := rfl

theorem sortStreams_hasActive (s : Store) (now : Int) :
    (s.sortStreams now).hasActive = s.hasActive := by
  unfold Store.hasActive
  rw [sortStreams_streams]
  exact hasActiveL_perm (List.perm_insertionSort _ _)

theorem mem_sortStreams {x : Stream} {s : Store} {now : Int}
    (h : x ∈ (s.sortStreams now).streams) : x ∈ s.streams := by
  rw [sortStreams_streams] at h
  exact (List.perm_insertionSort _ _).subset h

/-- C1: `ToggleStream` creates a session boundary exactly at global-activity
transitions: on the no-active to some-active transition a new open session
with `start = now` is appended; on the some-active to no-active transition
the most recent open session (the last open entry of the log) gets its end
set to `now`; when streams are active both before and after, the session
log is untouched. -/
theorem toggleStream_session_boundaries (s : Store) (id : String) (now : Int) :
    ((s.hasActive = false ∧ (s.toggleStream id now).hasActive = true) →
      (s.toggleStream id now).sessions =
        s.sessions ++ [{ start := now, end_ := none }]) ∧
    ((s.hasActive = true ∧ (s.toggleStream id now).hasActive = false) →
      ∀ (pre post : List Session) (sess : Session),
        s.sessions = pre ++ sess :: post → sess.end_ = none → allClosed post →
        (s.toggleStream id now).sessions =
          pre ++ { sess with end_ := some now } :: post) ∧
    ((s.hasActive = true ∧ (s.toggleStream id now).hasActive = true) →
      (s.toggleStream id now).sessions = s.sessions) := by
  refine ⟨?_, ?_, ?_⟩
  · rintro ⟨ha, hb⟩
    rw [toggleStream_hasActive] at hb
    exact toggleStream_sessions_open ha hb
  · rintro ⟨ha, hb⟩ pre post sess heq hopen hpost
    rw [toggleStream_hasActive] at hb
    rw [toggleStream_sessions_close ha hb, heq]
    exact closeSessions_decomp now hopen hpost
  · rintro ⟨ha, hb⟩
    rw [toggleStream_hasActive] at hb
    exact toggleStream_sessions_same (by rw [ha, hb])

/-- Witness for C1: toggling off the only active stream closes the single
open session at `now = 5`. -/
theorem toggleStream_session_boundaries_witness :
    (Store.toggleStream
      { streams := [{ id := "a", name := "A", seconds := 0, active := true,
                      startedAt := some 1, createdAt := 0 }],
        sessions := [{ start := 1, end_ := none }], lastActive := [] }
      "a" 5).sessions = [{ start := 1, end_ := some 5 }] :=
  (toggleStream_session_boundaries _ "a" 5).2.1 ⟨by decide, by decide⟩
    [] [] { start := 1, end_ := none } rfl rfl
    (fun u hu => absurd hu (List.not_mem_nil u))

/-- Counterexample for C2 as stated: from the empty store, AddStream "A",
AddStream "B", ToggleStream A (opens a session), DeleteStream A (removes
the only active stream without closing anything), ToggleStream B — the log
now holds two sessions with absent end, so the at-most-one-open-session
invariant fails under unrestricted `DeleteStream`. -/
theorem sessionLog_invariant_cex :
    openCount
      (Store.toggleStream
        (Store.deleteStream
          (Store.toggleStream
            (Store.addStream (Store.addStream ⟨[], [], []⟩ "a" "A" 0 0) "b" "B" 0 1)
            "a" 1)
          "a")
        "b" 2).sessions = 2 := by decide

/-- C2 (amended): in every store reachable from the empty store by
`AddStream`, `ToggleStream`, `StopAll`, `ContinueAll` and `DeleteStream`
applied only to inactive streams (the discipline `performDelete` enforces),
with non-decreasing wall-clock samples, at most one session is open, the
closed `[start, end)` intervals of any two distinct sessions never
intersect, and every further step only grows the log: existing starts are
preserved and closed sessions stay closed with the same end (sessions are
appended and closed, never removed, merged or split). -/
theorem sessionLog_invariant {t : Int} {s : Store} (h : Reach t s) :
    openCount s.sessions ≤ 1 ∧
    (∀ (i j : Nat) (si sj : Session) (ei ej : Int), i ≠ j →
      s.sessions[i]? = some si → s.sessions[j]? = some sj →
      si.end_ = some ei → sj.end_ = some ej →
      ∀ x : Int, ¬(si.start ≤ x ∧ x < ei ∧ sj.start ≤ x ∧ x < ej)) ∧
    (∀ (t' : Int) (s' : Store), Step t s t' s' → logGrows s.sessions s'.sessions) := by
  have hinv := reach_storeInv h
  refine ⟨sessChain_openCount hinv.1, ?_, fun t' s' hstep => step_logGrows hstep⟩
  intro i j si sj ei ej hij hi hj hei hej x hx
  obtain ⟨h1, h2, h3, h4⟩ := hx
  rcases Nat.lt_or_ge i j with hlt | hge
  · have := sessChain_ordered hinv.1 i j si sj ei hlt hi hj hei
    omega
  · have hjlt : j < i := by omega
    have := sessChain_ordered hinv.1 j i sj si ej hjlt hj hi hej
    omega

/-- Witness for C2: a concrete reachable store (add a stream at time 0,
toggle it on at time 1) has at most one open session. -/
theorem sessionLog_invariant_witness :
    openCount ((Store.addStream ⟨[], [], []⟩ "a" "A" 0 0).toggleStream "a" 1).sessions
      ≤ 1 :=
  (sessionLog_invariant
    (Reach.step 0 _ 1 _
      (Reach.step 0 _ 0 _ (Reach.init 0)
        (Step.add 0 ⟨[], [], []⟩ 0 "a" "A" 0 (le_refl 0)))
      (Step.toggle 0 _ 1 "a" (by omega)))).1

/-- C3: loading parsed persisted data fails with the data-inconsistency
error exactly when the wall-clock total is positive and the summed
accumulated seconds fall short of it; whenever the stream total is at
least the wall clock, the load succeeds. -/
theorem loadStore_validation (d : Store) (now : Int) :
    (loadStore d now = none ↔
      0 < d.totalWallClock now ∧ d.streamTotal < d.totalWallClock now) ∧
    (d.totalWallClock now ≤ d.streamTotal → (loadStore d now).isSome = true) := by
  constructor
  · unfold loadStore
    by_cases hc : 0 < d.totalWallClock now ∧ d.streamTotal < d.totalWallClock now
    · simp [hc]
    · simp [hc]
  · intro hge
    unfold loadStore
    rw [if_neg (by intro hc; omega)]
    rfl

/-- Witness for C3: a store with one hour of wall clock and one hour of
accumulated stream time loads successfully. -/
theorem loadStore_validation_witness :
    (loadStore
      ⟨[{ id := "a", name := "A", seconds := 3600, active := false,
          startedAt := none, createdAt := 0 }],
        [{ start := 0, end_ := some 3600 }], []⟩ 5000).isSome = true :=
  (loadStore_validation _ 5000).2 (by decide)

/-- Counterexample for C4 as stated: `SaveForBackground` flushes the
running delta of a still-active stream — seconds go from 0 to 10 while
`active` remains true and `startedAt` is rebased to `now`, so
`accumulatedSeconds` changes outside any Active-to-Inactive transition. -/
theorem accumulatedSeconds_flush_only_cex :
    ((Store.saveForBackground
      ⟨[{ id := "a", name := "A", seconds := 0, active := true,
          startedAt := some 0, createdAt := 0 }],
        [{ start := 0, end_ := none }], []⟩ 10)).streams =
      [{ id := "a", name := "A", seconds := 10, active := true,
         startedAt := some 10, createdAt := 0 }] := by decide

/-- C4 (amended): a stream's `seconds` field changes only through
`flushStream`: `AddStream`, `DeleteStream`, `SortStreams`,
`closeCurrentSession`, `Save`, `ContinueAll` and the load-time repair pass
leave every surviving stream's seconds untouched; `ToggleStream` and
`StopAll` change a stream's seconds only by deactivating it (the 4.1
flush); and `SaveForBackground` flushes still-active streams in place,
rebasing `startedAt` to `now` while preserving `elapsed`. -/
theorem accumulatedSeconds_flush_only (s : Store) (fresh name : String)
    (now pos : Int) (id : String) :
    (∀ st ∈ s.streams, st ∈ (s.addStream fresh name now pos).streams) ∧
    (∀ st ∈ (s.deleteStream id).streams, st ∈ s.streams) ∧
    (∀ st ∈ (s.sortStreams now).streams, st ∈ s.streams) ∧
    ((s.closeCurrentSession now).streams = s.streams) ∧
    (s.save.streams = s.streams) ∧
    (∀ (i : Nat) (st st' : Stream), s.streams[i]? = some st →
      (s.toggleStream id now).streams[i]? = some st' →
      st'.seconds = st.seconds ∨
        (st.active = true ∧ st'.active = false ∧ st' = deactivate st now)) ∧
    (∀ (i : Nat) (st st' : Stream), s.streams[i]? = some st →
      (s.stopAll now).streams[i]? = some st' →
      st'.seconds = st.seconds ∨
        (st.active = true ∧ st'.active = false ∧ st' = deactivate st now)) ∧
    (∀ (i : Nat) (st st' : Stream), s.streams[i]? = some st →
      (s.continueAll now).streams[i]? = some st' → st'.seconds = st.seconds) ∧
    (∀ (i : Nat) (st st' : Stream), s.streams[i]? = some st →
      (repairStreams now s.streams)[i]? = some st' → st'.seconds = st.seconds) ∧
    (∀ (i : Nat) (st st' : Stream), s.streams[i]? = some st →
      (s.saveForBackground now).streams[i]? = some st' →
      st'.seconds = st.seconds ∨
        (st.active = true ∧ st'.active = true ∧ st'.startedAt = some now ∧
          st'.elapsed now = st.elapsed now)) := by
  refine ⟨?_, ?_, ?_, rfl, rfl, ?_, ?_, ?_, ?_, ?_⟩
  · intro st hst
    rw [addStream_streams]
    rw [← List.take_append_drop (min pos.toNat s.streams.length) s.streams] at hst
    rcases List.mem_append.mp hst with h1 | h2
    · exact List.mem_append_left _ h1
    · exact List.mem_append_right _ (List.mem_cons_of_mem _ h2)
  · intro st hst
    exact mem_deleteFirst hst
  · intro st hst
    exact mem_sortStreams hst
  · intro i st st' hst hst'
    rw [toggleStream_streams] at hst'
    rcases toggleFirst_getElem? id now s.streams i st st' hst hst' with heq | ⟨_, heq⟩
    · exact Or.inl (by rw [heq])
    · cases hact : st.active
      · rw [if_neg (by rw [hact]; exact Bool.false_ne_true)] at heq
        exact Or.inl (by rw [heq])
      · rw [if_pos hact] at heq
        refine Or.inr ⟨rfl, ?_, heq⟩
        rw [heq]
        rfl
  · intro i st st' hst hst'
    rw [stopAll_streams, stopAllLoop_snd, List.getElem?_map, hst] at hst'
    injection hst' with hst'
    have hst2 : (if st.active = true then deactivate st now else st) = st' := hst'
    cases hact : st.active
    · rw [hact, if_neg Bool.false_ne_true] at hst2
      exact Or.inl (by rw [← hst2])
    · rw [hact, if_pos rfl] at hst2
      exact Or.inr ⟨rfl, by rw [← hst2]; rfl, hst2.symm⟩
  · intro i st st' hst hst'
    cases hemp : s.lastActive.isEmpty
    · rw [continueAll_streams now hemp, List.getElem?_map, hst] at hst'
      injection hst' with hst'
      unfold reactivateIn at hst'
      split at hst'
      · rw [← hst']
      · rw [← hst']
    · rw [continueAll_of_isEmpty now hemp, hst] at hst'
      injection hst' with hst'
      rw [← hst']
  · intro i st st' hst hst'
    unfold repairStreams at hst'
    rw [List.getElem?_map, hst] at hst'
    injection hst' with hst'
    have hst2 : (if (st.active && st.startedAt.isNone) = true then
        { st with startedAt := some now } else st) = st' := hst'
    by_cases hcond : (st.active && st.startedAt.isNone) = true
    · rw [if_pos hcond] at hst2
      rw [← hst2]
    · rw [if_neg hcond] at hst2
      rw [← hst2]
  · intro i st st' hst hst'
    simp only [Store.saveForBackground] at hst'
    rw [List.getElem?_map, hst] at hst'
    injection hst' with hst'
    have hst2 : (if st.active = true then
        { flushStream st now with startedAt := some now } else st) = st' := hst'
    cases hact : st.active
    · rw [hact, if_neg Bool.false_ne_true] at hst2
      exact Or.inl (by rw [← hst2])
    · rw [hact, if_pos rfl] at hst2
      cases hsa : st.startedAt with
      | none =>
        refine Or.inl ?_
        rw [← hst2]
        unfold flushStream
        rw [hsa]
      | some t0 =>
        refine Or.inr ⟨rfl, ?_, ?_, ?_⟩
        · rw [← hst2]
          unfold flushStream
          rw [hsa]
          exact hact
        · rw [← hst2]
        · rw [← hst2]
          unfold flushStream Stream.elapsed
          rw [hsa]
          simp only [hact]
          simp

/-- Witness for C4: in a store with one inactive remembered stream,
`ContinueAll` reactivates it without changing its banked seconds. -/
theorem accumulatedSeconds_flush_only_witness :
    (Store.continueAll
        ⟨[{ id := "a", name := "A", seconds := 7, active := false,
            startedAt := none, createdAt := 0 }], [], ["a"]⟩ 5).streams[0]?
      = some { id := "a", name := "A", seconds := 7, active := true,
               startedAt := some 5, createdAt := 0 } ∧
    ({ id := "a", name := "A", seconds := 7, active := true,
       startedAt := some 5, createdAt := 0 } : Stream).seconds =
      ({ id := "a", name := "A", seconds := 7, active := false,
         startedAt := none, createdAt := 0 } : Stream).seconds :=
  ⟨by decide,
    (accumulatedSeconds_flush_only
        ⟨[{ id := "a", name := "A", seconds := 7, active := false,
            startedAt := none, createdAt := 0 }], [], ["a"]⟩
        "x" "X" 5 0 "a").2.2.2.2.2.2.2.1 0 _ _ (by decide) (by decide)⟩

/-- C5: when the stream under the cursor is active and is the only active
stream, the delete flow (`performDelete`, which deactivates it, removes it
by id via `DeleteStream`, and closes the session) leaves no stream active
and no open session in the log. -/
theorem performDelete_closes_session (s : Store) (i : Nat) (st : Stream) (now : Int)
    (hget : s.streams[i]? = some st) (hact : st.active = true)
    (honly : ∀ (j : Nat) (st' : Stream), s.streams[j]? = some st' →
      st'.active = true → j = i)
    (hopen : openCount s.sessions ≤ 1) :
    (s.performDelete i now).hasActive = false ∧
    allClosed (s.performDelete i now).sessions := by
  have hlen : i < s.streams.length := by
    by_contra hge
    rw [List.getElem?_eq_none (by omega)] at hget
    exact absurd hget (by simp)
  have hs1 : hasActiveL
      (s.streams.set i { st with active := false, startedAt := none }) = false := by
    rw [hasActiveL_eq_false]
    intro x hx
    obtain ⟨j, hj⟩ := List.mem_iff_getElem?.mp hx
    rw [List.getElem?_set] at hj
    by_cases hij : i = j
    · rw [if_pos hij, if_pos (hij ▸ hlen)] at hj
      injection hj with hj
      rw [← hj]
    · rw [if_neg hij] at hj
      cases hxa : x.active
      · rfl
      · exact absurd (honly j x hj hxa).symm hij
  have hs2 : hasActiveL
      (deleteFirst st.id
        (s.streams.set i { st with active := false, startedAt := none })) = false := by
    rw [hasActiveL_eq_false] at hs1 ⊢
    intro x hx
    exact hs1 x (mem_deleteFirst hx)
  have hchar : s.performDelete i now =
      Store.sortStreams
        ⟨deleteFirst st.id
            (s.streams.set i { st with active := false, startedAt := none }),
          closeSessions s.sessions now, s.lastActive⟩ now := by
    simp only [Store.performDelete, hget, hact, if_pos, Store.deleteStream,
      Store.closeCurrentSession, Store.hasActive]
    rw [hs2]
    rfl
  rw [hchar]
  constructor
  · rw [sortStreams_hasActive]
    exact hs2
  · rw [sortStreams_sessions]
    exact allClosed_closeSessions_of_openCount hopen

/-- Witness for C5: deleting the single active stream of a one-stream store
with one open session leaves no active stream and a fully closed log. -/
theorem performDelete_closes_session_witness :
    (Store.performDelete
      ⟨[{ id := "a", name := "A", seconds := 0, active := true,
          startedAt := some 1, createdAt := 0 }],
        [{ start := 1, end_ := none }], []⟩ 0 4).hasActive = false ∧
    allClosed (Store.performDelete
      ⟨[{ id := "a", name := "A", seconds := 0, active := true,
          startedAt := some 1, createdAt := 0 }],
        [{ start := 1, end_ := none }], []⟩ 0 4).sessions :=
  performDelete_closes_session _ 0
    { id := "a", name := "A", seconds := 0, active := true,
      startedAt := some 1, createdAt := 0 } 4 (by decide) (by decide)
    (fun j st' hj ha => by
      cases j with
      | zero => rfl
      | succ n => simp at hj)
    (by decide)

/-- C6: `StopAll` records exactly the ids of the currently active streams
into `lastActive` (in list order, replacing any previous value); every
active stream is flushed (its running delta banked into seconds) and marked
inactive with `startedAt` cleared; inactive streams are untouched; and when
anything was active the open session is closed exactly once for the whole
batch: the log keeps its length and loses at most one (and, when one was
open, exactly one) open entry. -/
theorem stopAll_spec (s : Store) (now : Int) :
    (s.stopAll now).lastActive =
      (s.streams.filter (fun st => st.active)).map (fun st => st.id) ∧
    (s.stopAll now).streams.length = s.streams.length ∧
    (∀ (i : Nat) (st : Stream), s.streams[i]? = some st → st.active = true →
      (s.stopAll now).streams[i]? = some
        { st with
          seconds := st.seconds +
            (match st.startedAt with | some t0 => now - t0 | none => 0),
          active := false, startedAt := none }) ∧
    (∀ (i : Nat) (st : Stream), s.streams[i]? = some st → st.active = false →
      (s.stopAll now).streams[i]? = some st) ∧
    (s.hasActive = true →
      (s.stopAll now).sessions = closeSessions s.sessions now ∧
      (s.stopAll now).sessions.length = s.sessions.length ∧
      openCount (s.stopAll now).sessions ≤ openCount s.sessions ∧
      openCount s.sessions ≤ openCount (s.stopAll now).sessions + 1) ∧
    (s.hasActive = false → (s.stopAll now).sessions = s.sessions) := by
  refine ⟨?_, ?_, ?_, ?_, ?_, ?_⟩
  · rw [stopAll_lastActive, stopAllLoop_fst]
  · rw [stopAll_streams, stopAllLoop_snd, List.length_map]
  · intro i st hst hact
    rw [stopAll_streams, stopAllLoop_snd, List.getElem?_map, hst, Option.map_some']
    have h2 : (if st.active = true then deactivate st now else st) = deactivate st now :=
      if_pos hact
    rw [h2]
    cases hsa : st.startedAt <;>
      simp [deactivate, flushStream, hsa]
  · intro i st hst hact
    rw [stopAll_streams, stopAllLoop_snd, List.getElem?_map, hst]
    have h2 : (if st.active = true then deactivate st now else st) = st :=
      if_neg (by rw [hact]; exact Bool.false_ne_true)
    rw [Option.map_some', h2]
  · intro ha
    have hx : (s.stopAll now).sessions = closeSessions s.sessions now := by
      rw [stopAll_sessions, if_pos ha]
    refine ⟨hx, ?_, ?_, ?_⟩
    · rw [hx, length_closeSessions]
    · rw [hx]
      exact openCount_closeSessions_le now s.sessions
    · rw [hx]
      exact le_openCount_closeSessions now s.sessions
  · intro ha
    rw [stopAll_sessions, if_neg (by rw [ha]; exact Bool.false_ne_true)]

/-- Witness for C6: stopping a store with one running stream (5 banked
seconds, started at 2, stopped at 9) banks 7 more seconds and deactivates
it. -/
theorem stopAll_spec_witness :
    (Store.stopAll
      ⟨[{ id := "a", name := "A", seconds := 5, active := true,
          startedAt := some 2, createdAt := 0 }],
        [{ start := 2, end_ := none }], ["old"]⟩ 9).streams[0]? =
      some { id := "a", name := "A", seconds := 12, active := false,
             startedAt := none, createdAt := 0 } := by
  have h := (stopAll_spec
    ⟨[{ id := "a", name := "A", seconds := 5, active := true,
        startedAt := some 2, createdAt := 0 }],
      [{ start := 2, end_ := none }], ["old"]⟩ 9).2.2.1 0
    { id := "a", name := "A", seconds := 5, active := true,
      startedAt := some 2, createdAt := 0 } (by decide) (by decide)
  exact h

/-- C7: `ContinueAll` is a no-op on an empty `lastActive`; otherwise it
reactivates (with `startedAt = now`) exactly the remembered streams that
are not already active, leaves every other stream untouched, appends a new
open session exactly when the store transitions from no-active to
any-active, and clears `lastActive`. -/
theorem continueAll_spec (s : Store) (now : Int) :
    (s.lastActive = [] → s.continueAll now = s) ∧
    (s.lastActive ≠ [] →
      (s.continueAll now).lastActive = [] ∧
      (s.continueAll now).streams.length = s.streams.length ∧
      (∀ (i : Nat) (st : Stream), s.streams[i]? = some st →
        s.lastActive.contains st.id = true → st.active = false →
        (s.continueAll now).streams[i]? =
          some { st with active := true, startedAt := some now }) ∧
      (∀ (i : Nat) (st : Stream), s.streams[i]? = some st →
        (s.lastActive.contains st.id = false ∨ st.active = true) →
        (s.continueAll now).streams[i]? = some st) ∧
      ((s.hasActive = false ∧ (s.continueAll now).hasActive = true) →
        (s.continueAll now).sessions =
          s.sessions ++ [{ start := now, end_ := none }]) ∧
      (¬(s.hasActive = false ∧ (s.continueAll now).hasActive = true) →
        (s.continueAll now).sessions = s.sessions)) := by
  constructor
  · intro h
    exact continueAll_of_lastActive_nil now h
  · intro hne
    have hemp : s.lastActive.isEmpty = false := List.isEmpty_eq_false.mpr hne
    refine ⟨continueAll_lastActive s now, ?_, ?_, ?_, ?_, ?_⟩
    · rw [continueAll_streams now hemp, List.length_map]
    · intro i st hst hcont hact
      rw [continueAll_streams now hemp, List.getElem?_map, hst, Option.map_some']
      unfold reactivateIn
      rw [if_pos (by rw [hcont, hact]; rfl)]
    · intro i st hst hcond
      rw [continueAll_streams now hemp, List.getElem?_map, hst, Option.map_some']
      unfold reactivateIn
      rcases hcond with h1 | h2
      · rw [if_neg (by rw [h1]; simp)]
      · rw [if_neg (by rw [h2]; simp)]
    · rintro ⟨ha, hb⟩
      rw [continueAll_hasActive now hemp] at hb
      exact continueAll_sessions_open hemp ha hb
    · intro hab
      refine continueAll_sessions_same hemp ?_
      rintro ⟨h1, h2⟩
      exact hab ⟨h1, by rw [continueAll_hasActive now hemp]; exact h2⟩

/-- Witness for C7: continuing a store that remembers stream "a" (while
inactive and with no active streams) reactivates exactly "a", appends an
open session, and clears `lastActive`. -/
theorem continueAll_spec_witness :
    (Store.continueAll
      ⟨[{ id := "a", name := "A", seconds := 3, active := false,
          startedAt := none, createdAt := 0 }],
        [{ start := 0, end_ := some 2 }], ["a"]⟩ 6).streams[0]? =
      some { id := "a", name := "A", seconds := 3, active := true,
             startedAt := some 6, createdAt := 0 } :=
  (continueAll_spec
    ⟨[{ id := "a", name := "A", seconds := 3, active := false,
        startedAt := none, createdAt := 0 }],
      [{ start := 0, end_ := some 2 }], ["a"]⟩ 6).2 (by decide)
    |>.2.2.1 0
    { id := "a", name := "A", seconds := 3, active := false,
      startedAt := none, createdAt := 0 } (by decide) (by decide) (by decide)

/-- C9: `AddStream` splices a fresh stream (given id, zero seconds,
inactive, no start timestamp, `createdAt = now`) into the list at the
position clamped to `[0, len]` — negative positions insert at index 0,
positions at or past the end append — preserving all existing streams in
order; when the generated id is new and ids were previously unique they
stay unique. -/
theorem addStream_spec (s : Store) (fresh name : String) (now pos : Int) :
    (s.addStream fresh name now pos).streams =
      s.streams.take (min pos.toNat s.streams.length) ++
        ({ id := fresh, name := name, seconds := 0, active := false,
           startedAt := none, createdAt := now } : Stream) ::
          s.streams.drop (min pos.toNat s.streams.length) ∧
    (pos < 0 → (s.addStream fresh name now pos).streams =
      ({ id := fresh, name := name, seconds := 0, active := false,
         startedAt := none, createdAt := now } : Stream) :: s.streams) ∧
    ((s.streams.length : Int) ≤ pos → (s.addStream fresh name now pos).streams =
      s.streams ++ [{ id := fresh, name := name, seconds := 0, active := false,
                      startedAt := none, createdAt := now }]) ∧
    (fresh ∉ s.streams.map (fun st => st.id) →
      (s.streams.map (fun st => st.id)).Nodup →
      ((s.addStream fresh name now pos).streams.map (fun st => st.id)).Nodup) := by
  refine ⟨addStream_streams s fresh name now pos, ?_, ?_, ?_⟩
  · intro hneg
    rw [addStream_streams]
    have h0 : min pos.toNat s.streams.length = 0 := by omega
    rw [h0, List.take_zero, List.drop_zero, List.nil_append]
  · intro hge
    rw [addStream_streams]
    have h0 : min pos.toNat s.streams.length = s.streams.length := by omega
    rw [h0, List.take_length, List.drop_length]
  · intro hfresh hnd
    rw [addStream_streams, List.map_append, List.map_cons, List.map_take, List.map_drop]
    rw [List.nodup_middle, List.nodup_cons, List.take_append_drop]
    exact ⟨hfresh, hnd⟩

/-- Witness for C9: inserting at position `-3` of a one-stream store puts
the fresh stream at index 0 and keeps the old stream. -/
theorem addStream_spec_witness :
    (Store.addStream
      ⟨[{ id := "a", name := "A", seconds := 1, active := false,
          startedAt := none, createdAt := 0 }], [], []⟩ "b" "B" 7 (-3)).streams =
      ({ id := "b", name := "B", seconds := 0, active := false,
         startedAt := none, createdAt := 7 } : Stream) ::
        [{ id := "a", name := "A", seconds := 1, active := false,
           startedAt := none, createdAt := 0 }] :=
  (addStream_spec
    ⟨[{ id := "a", name := "A", seconds := 1, active := false,
        startedAt := none, createdAt := 0 }], [], []⟩ "b" "B" 7 (-3)).2.1
    (by decide)

/-- C10: `StopAll` on a store with no active stream leaves streams and
sessions unchanged but still clears `lastActive`, so a following
`ContinueAll` is a no-op. -/
theorem stopAll_no_active (s : Store) (now now2 : Int) (h : s.hasActive = false) :
    s.stopAll now = { s with lastActive := [] } ∧
    (s.stopAll now).continueAll now2 = s.stopAll now := by
  have hall : ∀ st ∈ s.streams, st.active = false := hasActiveL_eq_false.mp h
  have hloop1 : (stopAllLoop now s.streams).1 = [] := by
    rw [stopAllLoop_fst]
    rw [List.filter_eq_nil_iff.mpr (fun st hst => by rw [hall st hst]; simp)]
    rfl
  have hloop2 : (stopAllLoop now s.streams).2 = s.streams := by
    rw [stopAllLoop_snd]
    rw [List.map_congr_left (fun st hst =>
      if_neg (by rw [hall st hst]; exact Bool.false_ne_true))]
    exact List.map_id s.streams
  have hmain : s.stopAll now = { s with lastActive := [] } := by
    simp only [Store.stopAll]
    rw [if_neg (by rw [h]; exact Bool.false_ne_true), hloop1, hloop2]
  refine ⟨hmain, ?_⟩
  apply continueAll_of_lastActive_nil
  rw [hmain]

/-- Witness for C10: stopping a store with one inactive stream only clears
the remembered set; continuing afterwards changes nothing. -/
theorem stopAll_no_active_witness :
    Store.stopAll
        ⟨[{ id := "a", name := "A", seconds := 4, active := false,
            startedAt := none, createdAt := 0 }],
          [{ start := 0, end_ := some 2 }], ["a"]⟩ 9 =
      ⟨[{ id := "a", name := "A", seconds := 4, active := false,
          startedAt := none, createdAt := 0 }],
        [{ start := 0, end_ := some 2 }], []⟩ ∧
    (Store.stopAll
        ⟨[{ id := "a", name := "A", seconds := 4, active := false,
            startedAt := none, createdAt := 0 }],
          [{ start := 0, end_ := some 2 }], ["a"]⟩ 9).continueAll 11 =
      Store.stopAll
        ⟨[{ id := "a", name := "A", seconds := 4, active := false,
            startedAt := none, createdAt := 0 }],
          [{ start := 0, end_ := some 2 }], ["a"]⟩ 9 :=
  stopAll_no_active
    ⟨[{ id := "a", name := "A", seconds := 4, active := false,
        startedAt := none, createdAt := 0 }],
      [{ start := 0, end_ := some 2 }], ["a"]⟩ 9 11 (by decide)

/-- Counterexample for C8 as stated: a store with a closed one-hour session
and no streams serializes fine, but loading it back fails the consistency
check (`streamTotal = 0 < 3600 = wallClock`), so Save-then-Load does not
reproduce every store. -/
theorem save_load_roundtrip_cex :
    loadStore (Store.save ⟨[], [{ start := 0, end_ := some 3600 }], []⟩) 5000
      = none := by decide

/-- C8 (amended): for every store that passes the load-time consistency
check at the load instant (wall clock non-positive or covered by the
summed accumulated seconds) and whose active streams all carry a start
timestamp (so the load repair pass has nothing to fix), Save followed by
Load reproduces the store exactly — same streams, sessions and last-active
set. -/
theorem save_load_roundtrip (s : Store) (now : Int)
    (hval : ¬(0 < s.totalWallClock now ∧ s.streamTotal < s.totalWallClock now))
    (hstart : ∀ st ∈ s.streams, st.active = true → st.startedAt.isSome = true) :
    loadStore s.save now = some s := by
  have hsave : s.save = s := rfl
  rw [hsave]
  unfold loadStore
  rw [if_neg hval]
  have hrep : repairStreams now s.streams = s.streams := by
    unfold repairStreams
    refine Eq.trans (List.map_congr_left ?_) (List.map_id s.streams)
    intro st hst
    show (if (st.active && st.startedAt.isNone) = true then
      { st with startedAt := some now } else st) = id st
    cases hact : st.active
    · simp
    · cases hsa : st.startedAt with
      | none =>
        have h2 := hstart st hst hact
        rw [hsa] at h2
        simp at h2
      | some t0 => simp
  rw [hrep]

/-- Witness for C8: a consistent store with a running stream started at
time 40 and 100 banked seconds round-trips unchanged at load time 60. -/
theorem save_load_roundtrip_witness :
    loadStore
      (Store.save
        ⟨[{ id := "a", name := "A", seconds := 100, active := true,
            startedAt := some 40, createdAt := 0 }],
          [{ start := 0, end_ := some 30 }, { start := 40, end_ := none }], []⟩) 60
      = some
        ⟨[{ id := "a", name := "A", seconds := 100, active := true,
            startedAt := some 40, createdAt := 0 }],
          [{ start := 0, end_ := some 30 }, { start := 40, end_ := none }], []⟩ :=
  save_load_roundtrip _ 60 (by decide) (by decide)

end Urd
